import Mathlib

/-!
Verification of the yarm profile/repository manager core (Rust sources under
src/): the minimal glob matcher, the includeIf rule engine, profile catalog
reordering and lookup, the repository scanner, the state store and the
git-config collaborator boundary.

Strings and filesystem paths are modelled as lists of characters.  Filesystem
effects (canonicalization, home-directory lookup, the rule files read by
parse_include_if_rules, subprocess exit statuses) are passed in explicitly as
environment records, so every function is a pure translation of the
corresponding Rust item.
-/

abbrev Str := List Char

def str (s : String) : Str := s.toList

/-- Rust str::split with separator char: yields the (possibly empty)
segments between occurrences of the separator.  Translation of
pattern.split('*') as used by glob_match in src/src/profile.rs. -/
def splitStar : Str → List Str
  | [] => [[]]
  | c :: rest =>
    if c = '*' then [] :: splitStar rest
    else
      match splitStar rest with
      | [] => [[c]]
      | s :: ss => (c :: s) :: ss

/-- Rust str::find on a substring: the least index at which pat occurs in t,
if any (byte positions are modelled as character positions). -/
def findSub : Str → Str → Option Nat
  | [], pat => if pat.isPrefixOf [] then some 0 else none
  | t@(_ :: t2), pat =>
    if pat.isPrefixOf t then some 0 else (findSub t2 pat).map (· + 1)

/-- The body of the for-loop of glob_match (src/src/profile.rs lines 116-136):
parts is the remaining suffix of the pattern segments, first records whether
the current segment has enumerate-index 0, and the final segment is
recognized by the remainder being empty. -/
def globLoop (parts : List Str) (first : Bool) (text : Str) (pos : Nat) : Bool :=
  match parts with
  | [] => true
  | part :: rest =>
    if part.isEmpty then globLoop rest false text pos
    else if first then
      if part.isPrefixOf text then globLoop rest false text part.length else false
    else if rest.isEmpty then
      if part.isSuffixOf text then globLoop rest false text pos else false
    else
      match findSub (text.drop pos) part with
      | some found => globLoop rest false text (pos + found + part.length)
      | none => false

/-- Translation of glob_match (src/src/profile.rs lines 109-139). -/
def glob_match (pattern text : Str) : Bool :=
  if (splitStar pattern).length = 1 then pattern == text
  else globLoop (splitStar pattern) true text 0

/-- A pattern segment occurs in the text at position p. -/
def segOccursAt (seg text : Str) (p : Nat) : Prop := seg <+: text.drop p

/-- Spec 4.1, interior segments: each segment occurs at some position at or
after the end of the previous occurrence (left-to-right, non-overlapping). -/
def chainOk : List Str → Str → Nat → Prop
  | [], _, _ => True
  | seg :: rest, text, start =>
    ∃ p, start ≤ p ∧ segOccursAt seg text p ∧ chainOk rest text (p + seg.length)

/-- The Glob Matcher contract as the spec phrases it: with no wildcard the
match is exact equality; otherwise the text starts with the first segment
(when that segment is non-empty; a leading wildcard makes it empty and
imposes no constraint), ends with the last segment (when non-empty), and
the interior non-empty segments occur in left-to-right non-overlapping
order starting after the prefix occurrence. -/
def globMatchSpec (pattern text : Str) : Prop :=
  if (splitStar pattern).length = 1 then pattern = text
  else
    ((splitStar pattern).headD [] ≠ [] → (splitStar pattern).headD [] <+: text) ∧
    (∀ l, (splitStar pattern).getLast? = some l → l ≠ [] → l <:+ text) ∧
    chainOk ((((splitStar pattern).drop 1).dropLast).filter (fun s => !s.isEmpty))
      text ((splitStar pattern).headD []).length

/-- An includeIf rule parsed from a gitconfig file (src/src/profile.rs
lines 35-41). -/
structure IncludeIfRule where
  condition : Str
  target_path : Str
deriving DecidableEq

/-- Context for profile resolution (src/src/profile.rs lines 17-23). -/
structure ProfileContext where
  target_path : Option Str
  clone_url : Option Str
deriving DecidableEq

/-- A discovered git identity profile (src/src/profile.rs lines 197-217). -/
structure Profile where
  name : Str
  source : Str
  user_name : Option Str
  user_email : Option Str
  signing_key : Option Str
  gpg_sign : Option Bool
  gpg_format : Option Str
  tag_gpg_sign : Option Bool
  is_default : Bool
deriving DecidableEq

/-- Filesystem and ambient effects of the profile engine, passed explicitly:
Path::canonicalize (none models an Err result), dirs::home_dir, and the
rule list that parse_include_if_rules() reads from the global gitconfig
files. -/
structure Env where
  canonicalize : Str → Option Str
  home : Option Str
  rules : List IncludeIfRule

/-- config::expand_tilde (src/src/config.rs lines 74-81); PathBuf::join of
home and the remainder is modelled as separator concatenation. -/
def expand_tilde (home : Option Str) (path : Str) : Str :=
  match path with
  | '~' :: '/' :: rest =>
    match home with
    | some h => h ++ '/' :: rest
    | none => path
  | _ => path

/-- Rust str::to_lowercase, modelled per character. -/
def lower (s : Str) : Str := s.map Char.toLower

/-- Rust str::trim_end_matches: repeatedly removes the suffix pat. -/
def trimEnd (s pat : Str) : Str :=
  if h : pat.isSuffixOf s = true ∧ pat ≠ [] then
    trimEnd (s.take (s.length - pat.length)) pat
  else s
termination_by s.length
decreasing_by
  have hsuf := List.isSuffixOf_iff_suffix.mp h.1
  have hle : pat.length ≤ s.length := hsuf.length_le
  have hpos : 0 < pat.length := List.length_pos.mpr h.2
  simp only [List.length_take]
  omega

/-- Rust str::strip with a literal head pattern: some remainder when the
pattern heads the string. -/
def stripPre : Str → Str → Option Str
  | [], s => some s
  | _ :: _, [] => none
  | c :: p, d :: s => if c = d then stripPre p s else none

/-- Canonicalization with the canonicalize-or-fall-back-to-the-literal-path
idiom used throughout src/src/profile.rs. -/
def canonOr (env : Env) (p : Str) : Str := (env.canonicalize p).getD p

/-- IncludeIfRule::matches_gitdir (src/src/profile.rs lines 59-96). -/
def matches_gitdir (env : Env) (pattern : Str) (context : ProfileContext)
    (case_insensitive : Bool) : Bool :=
  match context.target_path with
  | none => false
  | some target0 =>
    let target := (env.canonicalize target0).getD target0
    let pattern_path := expand_tilde env.home pattern
    let pattern_normalized := (env.canonicalize pattern_path).getD pattern_path
    let target_cmp := if case_insensitive then lower target else target
    let pattern_cmp := if case_insensitive then lower pattern_normalized
      else pattern_normalized
    if (str "/").isSuffixOf pattern || (str "/**").isSuffixOf pattern then
      (trimEnd (trimEnd pattern_cmp (str "/")) (str "**")).isPrefixOf target_cmp
    else if pattern.contains '*' then
      glob_match pattern_cmp target_cmp
    else target_cmp == pattern_cmp

/-- IncludeIfRule::matches_url (src/src/profile.rs lines 99-105). -/
def matches_url (pattern : Str) (context : ProfileContext) : Bool :=
  match context.clone_url with
  | none => false
  | some url => glob_match pattern url

/-- IncludeIfRule::matches (src/src/profile.rs lines 45-56). -/
def IncludeIfRule.matches (rule : IncludeIfRule) (env : Env)
    (context : ProfileContext) : Bool :=
  match stripPre (str "gitdir:") rule.condition with
  | some pattern => matches_gitdir env pattern context false
  | none =>
    match stripPre (str "gitdir/i:") rule.condition with
    | some pattern => matches_gitdir env pattern context true
    | none =>
      match stripPre (str "hasconfig:remote.*.url:") rule.condition with
      | some pattern => matches_url pattern context
      | none => false

/-- Vec::remove at the first index satisfying the predicate, paired with the
remaining list (the position/remove/insert idiom of promote_default). -/
def extractFirst (pred : Profile → Bool) : List Profile → Option (Profile × List Profile)
  | [] => none
  | x :: xs =>
    if pred x then some (x, xs)
    else (extractFirst pred xs).map (fun y => (y.1, x :: y.2))

/-- promote_default (src/src/profile.rs lines 462-473). -/
def promote_default (profiles : List Profile) (default_name : Option Str) :
    List Profile :=
  match default_name with
  | none => profiles
  | some name =>
    match extractFirst (fun p => p.name == name) profiles with
    | some pr => pr.1 :: pr.2
    | none => profiles

/-- The set of target paths of the rules matching the context, as collected
by reorder_profiles_by_rules (a HashSet in Rust, kept as a list here; only
membership and emptiness are consumed). -/
def matchingSources (env : Env) (context : ProfileContext)
    (rules : List IncludeIfRule) : List Str :=
  (rules.filter (fun rule => rule.matches env context)).map
    (fun rule => rule.target_path)

/-- reorder_profiles_by_rules (src/src/profile.rs lines 417-459).  The
matching/non_matching accumulation loop is List.partition. -/
def reorder_profiles_by_rules (env : Env) (profiles : List Profile)
    (context : ProfileContext) (rules : List IncludeIfRule)
    (default_profile : Option Str) : List Profile :=
  if !rules.isEmpty then
    if !(matchingSources env context rules).isEmpty then
      match profiles.partition (fun profile =>
        (matchingSources env context rules).any (fun rule_target =>
          canonOr env rule_target == canonOr env profile.source)) with
      | (matching, non_matching) => matching ++ non_matching
    else promote_default profiles default_profile
  else promote_default profiles default_profile

/-- reorder_profiles_by_context (src/src/profile.rs lines 402-413);
parse_include_if_rules() supplies env.rules. -/
def reorder_profiles_by_context (env : Env) (profiles : List Profile)
    (context : ProfileContext) (default_profile : Option Str) : List Profile :=
  if context.target_path.isSome || context.clone_url.isSome then
    reorder_profiles_by_rules env profiles context env.rules default_profile
  else promote_default profiles default_profile

/-- Rust slice join with a separator. -/
def joinSep : List Str → Str → Str
  | [], _ => []
  | [x], _ => x
  | x :: y :: rest, sep => x ++ sep ++ joinSep (y :: rest) sep

/-- The error text of find_profile_by_name, naming every available profile
(ASCII quote characters around the query are omitted from the model). -/
def notFoundMsg (name : Str) (profiles : List Profile) : Str :=
  str "Profile " ++ name ++ str " not found. Available profiles: " ++
    joinSep (profiles.map (fun p => p.name)) (str ", ")

/-- find_profile_by_name (src/src/profile.rs lines 509-538). -/
def find_profile_by_name (profiles : List Profile) (name : Str) :
    Except Str Profile :=
  let search_path := name
  let dotted_name := '.' :: name
  let gitconfig_name := str ".gitconfig-" ++ name
  match profiles.find? (fun p => p.name == name || p.source == search_path) with
  | some profile => .ok profile
  | none =>
    match profiles.find?
        (fun p => p.name == dotted_name || p.name == gitconfig_name) with
    | some profile => .ok profile
    | none => .error (notFoundMsg name profiles)

/-- Spec-side predicate of 4.4: the profile's canonicalized source equals
the canonicalized target_path of some rule matching the context. -/
def matchesRuleTarget (env : Env) (rules : List IncludeIfRule)
    (context : ProfileContext) (profile : Profile) : Bool :=
  rules.any (fun r =>
    r.matches env context && (canonOr env r.target_path == canonOr env profile.source))

/-- Spec-side default promotion of 4.4: the first profile carrying the
configured default name is moved to the front; the relative order of all
other profiles is unchanged. -/
def promotedSpec (profiles : List Profile) (default_name : Option Str) :
    List Profile :=
  match default_name with
  | none => profiles
  | some d =>
    match profiles.findIdx? (fun p => p.name == d) with
    | none => profiles
    | some i =>
      match profiles[i]? with
      | some p => p :: profiles.eraseIdx i
      | none => profiles

deriving instance DecidableEq for Except

/-- A concrete profile record with only identity fields, for concrete
evaluations. -/
def mkProfile (name source : String) : Profile :=
  ⟨str name, str source, some (str "U"), some (str "u@example.com"),
    none, none, none, none, false⟩

/-- The catalog of the spec name-lookup example: work, .personal,
.gitconfig-oss. -/
def sampleProfiles : List Profile :=
  [mkProfile "work" "/home/user/.gitconfig-work",
   mkProfile ".personal" "/home/user/.personal",
   mkProfile ".gitconfig-oss" "/home/user/.gitconfig-oss"]

/-- A catalog holding both a dot-prefixed and a gitconfig-prefixed profile
for the query x, the gitconfig-prefixed one listed first. -/
def cexCatalog : List Profile :=
  [mkProfile ".gitconfig-x" "/home/user/.gitconfig-x",
   mkProfile ".x" "/home/user/.x"]

/-- An environment with failing canonicalization, no home directory and one
hasconfig rule bound to the work profile source. -/
def envC1 : Env :=
  ⟨fun _ => none, none,
   [⟨str "hasconfig:remote.*.url:*company.com*",
     str "/home/user/.gitconfig-work"⟩]⟩

/-- A context carrying only a clone URL that the envC1 rule matches. -/
def ctxC1 : ProfileContext := ⟨none, some (str "https://company.com/x.git")⟩

/-- The two-profile catalog of the spec reordering example. -/
def reorderCatalog : List Profile :=
  [mkProfile "personal" "/home/user/.gitconfig-personal",
   mkProfile "work" "/home/user/.gitconfig-work"]

/-- The target operand of a gitdir comparison as the spec states it:
canonicalized when possible (literal on failure), lowercased by the
case-insensitive variant. -/
def gitdirTarget (env : Env) (target0 : Str) (ci : Bool) : Str :=
  if ci then lower (canonOr env target0) else canonOr env target0

/-- The pattern operand of a gitdir comparison as the spec states it:
home-expanded, canonicalized when possible (literal on failure), lowercased
by the case-insensitive variant. -/
def gitdirOperand (env : Env) (pattern : Str) (ci : Bool) : Str :=
  if ci then lower (canonOr env (expand_tilde env.home pattern))
  else canonOr env (expand_tilde env.home pattern)

/-- Spec 4.3 gitdir matching: requires a target path; if the pattern ends
with a slash or slash-star-star the match is a directory-prefix test on the
stripped pattern; else a pattern containing a wildcard delegates to the
Glob Matcher; else exact string equality. -/
def matchesGitdirSpec (env : Env) (pattern : Str) (context : ProfileContext)
    (ci : Bool) : Prop :=
  ∃ target0, context.target_path = some target0 ∧
    (if (str "/") <:+ pattern ∨ (str "/**") <:+ pattern then
      trimEnd (trimEnd (gitdirOperand env pattern ci) (str "/")) (str "**")
        <+: gitdirTarget env target0 ci
    else if '*' ∈ pattern then
      glob_match (gitdirOperand env pattern ci) (gitdirTarget env target0 ci) = true
    else
      gitdirTarget env target0 ci = gitdirOperand env pattern ci)

/-- An environment with failing canonicalization, no home and no rules. -/
def envC5 : Env := ⟨fun _ => none, none, []⟩

/-- A context whose target path is the literal path the C5 witness rule
names. -/
def ctxC5 : ProfileContext := ⟨some (str "/w"), none⟩

/-- State (src/src/state.rs lines 19-24). -/
structure State where
  repositories : List Str
  last_scan : Option Nat
deriving DecidableEq

/-- State::default(): empty repositories, no last scan. -/
def State.dflt : State := ⟨[], none⟩

/-- The versioned envelope (src/src/state.rs lines 13-17). -/
structure StateEnvelope where
  version : Nat
  state : State
deriving DecidableEq

/-- STATE_VERSION (src/src/state.rs line 11). -/
def STATE_VERSION : Nat := 2

/-- Effects of the state store: whether state_path() resolved, whether the
file exists, the fs::read outcome (none models an Err), and the external
bitcode deserializer as an abstract decoder over the read bytes. -/
structure StateEnv where
  path_known : Bool
  file_exists : Bool
  read : Option (List Nat)
  decode : List Nat → Option StateEnvelope

/-- state::load (src/src/state.rs lines 45-62), paired with whether the
fs::remove_file side effect ran. -/
def load (env : StateEnv) : Except Str State × Bool :=
  if !env.path_known then (.ok State.dflt, false)
  else if !env.file_exists then (.ok State.dflt, false)
  else
    match env.read with
    | none => (.error (str "Failed to read yarm state file"), false)
    | some bytes =>
      match env.decode bytes with
      | some envelope =>
        if envelope.version = STATE_VERSION then (.ok envelope.state, false)
        else (.ok State.dflt, true)
      | none => (.ok State.dflt, true)

/-- A state environment whose file exists but cannot be read. -/
def stEnvUnreadable : StateEnv := ⟨true, true, none, fun _ => none⟩

/-- A state environment holding a decodable envelope with a stale version. -/
def stEnvStale : StateEnv :=
  ⟨true, true, some [],
   fun _ => some ⟨1, ⟨[str "/some/repo"], none⟩⟩⟩

/-- The argument vector set_config builds (src/src/git.rs lines 54-68):
dispatch on path.is_dir(), then the set or unset form. -/
def set_config_args (is_dir : Bool) (path key : Str) (value : Option Str) :
    List Str :=
  (if is_dir then [str "-C", path, str "config", str "--local"]
   else [str "config", str "--file", path]) ++
  (match value with
   | some v => [key, v]
   | none => [str "--unset", key])

/-- Effects of the git collaborator: path.is_dir() and the spawned process
exit for a given argument vector (none models a spawn failure; the inner
none models termination by signal; success is exit code 0). -/
structure GitEnv where
  is_dir : Bool
  run : List Str → Option (Option Int)

/-- ExitStatus::success(). -/
def statusSuccess (code : Option Int) : Bool := code == some 0

/-- git::set_config (src/src/git.rs lines 54-84). -/
def set_config (env : GitEnv) (path key : Str) (value : Option Str) :
    Except Str Unit :=
  match env.run (set_config_args env.is_dir path key value) with
  | none => .error (str "Failed to run git config for " ++ key)
  | some code =>
    if value.isNone && code == some 5 then .ok ()
    else if !statusSuccess code then
      .error (str "Failed to set git config " ++ key)
    else .ok ()

/-- A git environment whose config subprocess exits with code 5. -/
def gitEnv5 : GitEnv := ⟨true, fun _ => some (some 5)⟩

/-- A filesystem entry: a regular file, or a directory with named entries;
the Bool models readability (false: fs::read_dir fails on it). -/
inductive FsEntry where
  | file : FsEntry
  | dir : Bool → List (Str × FsEntry) → FsEntry

instance : Inhabited FsEntry := ⟨FsEntry.file⟩

mutual

def esize : FsEntry → Nat
  | .file => 1
  | .dir _ es => 1 + esizeList es

def esizeList : List (Str × FsEntry) → Nat
  | [] => 0
  | (_, e) :: rest => esize e + esizeList rest

end

/-- fs::read_dir: the entries of a readable directory, failure otherwise. -/
def readDir : FsEntry → Option (List (Str × FsEntry))
  | .file => none
  | .dir readable es => if readable then some es else none

/-- Path::is_dir(). -/
def isDirE : FsEntry → Bool
  | .file => false
  | .dir _ _ => true

/-- name.starts_with a dot. -/
def startsWithDot : Str → Bool
  | '.' :: _ => true
  | _ => false

/-- SKIP_DIRS (src/src/commands/scan.rs line 11). -/
def SKIP_DIRS : List Str :=
  [str "node_modules", str "target", str "vendor", str "__pycache__",
   str ".build"]

/-- Path components joined with the separator, the textual form of the
strip_prefix result handed to the exclusion matcher. -/
def joinPath (components : List Str) : Str := joinSep components (str "/")

/-- A token of a modelled globset pattern. -/
inductive GsTok where
  | lit : Char → GsTok
  | star : GsTok
  | dstar : GsTok
deriving DecidableEq

/-- Modelled from the spec: tokenization of the pattern language fragment
(literals and star runs) of the external globset crate that
build_exclude_set configures (src/src/commands/scan.rs lines 81-91): a
single star is the non-separator wildcard, a run of two or more stars the
recursive wildcard (further stars of a run extend it without changing the
matching relation). -/
def gsTokens : Str → List GsTok
  | [] => []
  | c :: rest =>
    if c = '*' then
      match rest with
      | [] => [.star]
      | c2 :: rest2 =>
        if c2 = '*' then .dstar :: gsTokens rest2
        else .star :: gsTokens (c2 :: rest2)
    else .lit c :: gsTokens rest

/-- The suffixes of s reachable by consuming a run of non-separator
characters (including the empty run). -/
def starSuffixes : Str → List Str
  | [] => [[]]
  | x :: xs => (x :: xs) :: (if x = '/' then [] else starSuffixes xs)

/-- All suffixes of s, the full string and the empty one included. -/
def allSuffixes : Str → List Str
  | [] => [[]]
  | x :: xs => (x :: xs) :: allSuffixes xs

/-- Modelled from the spec: the matching relation of the external globset
crate with literal_separator(true) on the tokenized pattern: the whole text
must be consumed; a literal consumes its character, the single star any
non-separator run, the recursive wildcard any run. -/
def gsMatch : List GsTok → Str → Bool
  | [], s => s.isEmpty
  | .lit c :: ts, s =>
    match s with
    | [] => false
    | x :: xs => c == x && gsMatch ts xs
  | .star :: ts, s => (starSuffixes s).any (fun suffix => gsMatch ts suffix)
  | .dstar :: ts, s => (allSuffixes s).any (fun suffix => gsMatch ts suffix)

/-- Modelled from the spec: GlobSet::is_match of one compiled pattern. -/
def globsetMatch (pattern text : Str) : Bool := gsMatch (gsTokens pattern) text

/-- Whether the enumerated entries contain one named .git of either kind
(scan.rs lines 117-120 break at the first such entry; candidates collected
before the break are discarded, so the any-test is the observable break). -/
def hasGit (es : List (Str × FsEntry)) : Bool :=
  es.any (fun e => e.1 == str ".git")

/-- The subdirectory candidates collected by the entry loop of
scan_directory (scan.rs lines 122-136): directories, not hidden, not in
SKIP_DIRS, and whose root-relative path matches no exclusion pattern. -/
def eligibleSubdirs (excl : List Str) (rel : List Str)
    (es : List (Str × FsEntry)) : List (Str × FsEntry) :=
  es.filter (fun e =>
    isDirE e.2
    && !startsWithDot e.1
    && !(SKIP_DIRS.contains e.1)
    && !(excl.any (fun pattern => globsetMatch pattern (joinPath (rel ++ [e.1])))))

/-- max_depth.is_none_or(depth < limit) (scan.rs line 141). -/
def depthOk (max_depth : Option Nat) (depth : Nat) : Bool :=
  match max_depth with
  | none => true
  | some limit => depth < limit

/-- The measure of the scanner worklist: total entry size. -/
def stackSize (stack : List (FsEntry × List Str × Nat)) : Nat :=
  (stack.map (fun it => esize it.1)).sum

theorem esize_pos (e : FsEntry) : 0 < esize e := by
  cases e with
  | file => simp [esize]
  | dir b es => simp only [esize]; omega

theorem esizeList_filter_le (q : Str × FsEntry → Bool) :
    ∀ es : List (Str × FsEntry), esizeList (es.filter q) ≤ esizeList es := by
  intro es
  induction es with
  | nil => simp [List.filter_nil]
  | cons a rest ih =>
    obtain ⟨n, e⟩ := a
    by_cases h : q (n, e)
    · simp only [List.filter_cons, h, if_true, esizeList]
      omega
    · simp only [List.filter_cons, h, Bool.false_eq_true, if_false, esizeList]
      have := esize_pos e
      omega

theorem esize_le_of_mem {pr : Str × FsEntry} :
    ∀ {es : List (Str × FsEntry)}, pr ∈ es → esize pr.2 ≤ esizeList es := by
  intro es
  induction es with
  | nil => intro h; cases h
  | cons a rest ih =>
    intro h
    obtain ⟨n, e⟩ := a
    rcases List.mem_cons.mp h with h1 | h2
    · subst h1
      simp only [esizeList]
      omega
    · have := ih h2
      simp only [esizeList]
      omega

theorem readDir_esize {e : FsEntry} {es : List (Str × FsEntry)}
    (h : readDir e = some es) : esize e = 1 + esizeList es := by
  cases e with
  | file => simp [readDir] at h
  | dir b es2 =>
    simp only [readDir] at h
    split at h
    · cases h; rfl
    · cases h

theorem stackSize_append (a b : List (FsEntry × List Str × Nat)) :
    stackSize (a ++ b) = stackSize a + stackSize b := by
  simp [stackSize]

theorem stackSize_children (es : List (Str × FsEntry))
    (f : Str × FsEntry → List Str × Nat) :
    stackSize (es.map (fun e2 => (e2.2, f e2))) = esizeList es := by
  induction es with
  | nil => rfl
  | cons a rest ih =>
    obtain ⟨n, e⟩ := a
    simp only [List.map_cons, stackSize, List.sum_cons, esizeList] at ih ⊢
    omega

theorem esizeList_reverse : ∀ es : List (Str × FsEntry),
    esizeList es.reverse = esizeList es := by
  have happ : ∀ a b : List (Str × FsEntry),
      esizeList (a ++ b) = esizeList a + esizeList b := by
    intro a b
    induction a with
    | nil => simp [esizeList]
    | cons x rest ih =>
      obtain ⟨n, e⟩ := x
      simp only [List.cons_append, esizeList, List.append_eq] at ih ⊢
      omega
  intro es
  induction es with
  | nil => rfl
  | cons a rest ih =>
    obtain ⟨n, e⟩ := a
    simp only [List.reverse_cons, happ, ih, esizeList]
    omega

/-- The while-let worklist of scan_directory (src/src/commands/scan.rs
lines 101-144).  The Vec top is the list head, so Vec::extend pushes the
collected subdirectories in reverse order; hits accumulate in pop order. -/
def scanLoop (excl : List Str) (max_depth : Option Nat) :
    List (FsEntry × List Str × Nat) → List (List Str) → List (List Str)
  | [], repos => repos
  | (e, rel, depth) :: stack, repos =>
    match h : readDir e with
    | none => scanLoop excl max_depth stack repos
    | some es =>
      if hasGit es then scanLoop excl max_depth stack (repos ++ [rel])
      else if depthOk max_depth depth then
        scanLoop excl max_depth
          ((eligibleSubdirs excl rel es).reverse.map
            (fun e2 => (e2.2, (rel ++ [e2.1], depth + 1))) ++ stack)
          repos
      else scanLoop excl max_depth stack repos
termination_by stack _ => stackSize stack
decreasing_by
  · simp only [stackSize, List.map_cons, List.sum_cons]
    have := esize_pos e
    omega
  · simp only [stackSize, List.map_cons, List.sum_cons]
    have := esize_pos e
    omega
  · rw [stackSize_append, stackSize_children, esizeList_reverse]
    have h1 := esizeList_filter_le (fun e2 =>
      isDirE e2.2
      && !startsWithDot e2.1
      && !(SKIP_DIRS.contains e2.1)
      && !(excl.any (fun pattern =>
            globsetMatch pattern (joinPath (rel ++ [e2.1]))))) es
    have h2 := readDir_esize h
    simp only [stackSize, List.map_cons, List.sum_cons, eligibleSubdirs]
    omega
  · simp only [stackSize, List.map_cons, List.sum_cons]
    have := esize_pos e
    omega

/-- scan_directory (src/src/commands/scan.rs lines 97-147).  Hits are
root-relative component paths ([] is the pool root itself). -/
def scan_directory (root : FsEntry) (excl : List Str)
    (max_depth : Option Nat) : List (List Str) :=
  scanLoop excl max_depth [(root, ([], 0))] []

mutual

/-- The per-directory recursive characterization of the worklist scan: a
hit when the entries hold .git, otherwise the concatenation over the
eligible subdirectories in stack pop order when the depth bound allows
descent. -/
def dfs (excl : List Str) (max_depth : Option Nat) :
    FsEntry → List Str → Nat → List (List Str)
  | e, rel, depth =>
    match h : readDir e with
    | none => []
    | some es =>
      if hasGit es then [rel]
      else if depthOk max_depth depth then
        dfsList excl max_depth ((eligibleSubdirs excl rel es).reverse) rel depth
      else []
termination_by e _ _ => 2 * esize e
decreasing_by
  have h1 := esizeList_filter_le (fun e2 =>
    isDirE e2.2
    && !startsWithDot e2.1
    && !(SKIP_DIRS.contains e2.1)
    && !(excl.any (fun pattern =>
          globsetMatch pattern (joinPath (rel ++ [e2.1]))))) es
  have h2 := readDir_esize h
  have h3 := esizeList_reverse (eligibleSubdirs excl rel es)
  simp only [eligibleSubdirs] at h1 h3 ⊢
  omega

/-- The walk over a collected subdirectory list of the recursive scan
characterization. -/
def dfsList (excl : List Str) (max_depth : Option Nat) :
    List (Str × FsEntry) → List Str → Nat → List (List Str)
  | [], _, _ => []
  | (n, c) :: rest, rel, depth =>
    dfs excl max_depth c (rel ++ [n]) (depth + 1)
      ++ dfsList excl max_depth rest rel depth
termination_by lst _ _ => 2 * esizeList lst + 1
decreasing_by
  · have h1 : esize c ≤ esizeList ((n, c) :: rest) :=
      esize_le_of_mem (List.mem_cons_self (n, c) rest)
    simp only [esizeList] at h1 ⊢
    omega
  · have h2 := esize_pos c
    simp only [esizeList]
    omega

end

/-- The spec example tree with .git at the root and below: root/.git and
root/child/.git. -/
def treeRootChildGit : FsEntry :=
  .dir true [(str ".git", .dir true []),
             (str "child", .dir true [(str ".git", .file)])]

/-- A tree whose only repository is one level down: root/child/.git. -/
def treeChildGit : FsEntry :=
  .dir true [(str "child", .dir true [(str ".git", .file)])]

/-- A tree with one repository under the subdirectory a: root/a/.git. -/
def treeSubA : FsEntry :=
  .dir true [(str "a", .dir true [(str ".git", .file)])]

/-- A TOML value of the kinds the tool configuration uses. -/
inductive TomlVal where
  | int : Int → TomlVal
  | strv : Str → TomlVal
  | arr : List TomlVal → TomlVal

/-- RepositoriesConfig.  src/src/config.rs in this snapshot declares only
pools and exclude (lines 23-29) while the scan command reads
config.repositories.max_depth (src/src/commands/scan.rs line 45); the
missing field is modelled from the spec (repositories.max_depth: optional
int). -/
structure RepositoriesConfig where
  pools : List Str
  exclude : List Str
  max_depth : Option Nat

/-- Key lookup in a TOML table. -/
def lookupKey (tbl : List (Str × TomlVal)) (k : Str) : Option TomlVal :=
  (tbl.find? (fun p => p.1 == k)).map (fun p => p.2)

/-- Decoding of an optional string array with the serde default. -/
def decodeStrArr : Option TomlVal → Option (List Str)
  | none => some []
  | some (.arr xs) =>
    xs.mapM (fun v => match v with | .strv s => some s | _ => none)
  | some _ => none

/-- Modelled from the spec: serde decoding of the [repositories] table
(Deserialize with per-field defaults): pools and exclude are optional
string arrays defaulting to empty, max_depth an optional u32. -/
def decodeRepositoriesConfig (tbl : List (Str × TomlVal)) :
    Option RepositoriesConfig :=
  match decodeStrArr (lookupKey tbl (str "pools")) with
  | none => none
  | some pools =>
    match decodeStrArr (lookupKey tbl (str "exclude")) with
    | none => none
    | some exclude =>
      match lookupKey tbl (str "max_depth") with
      | none => some ⟨pools, exclude, none⟩
      | some (.int n) =>
        if 0 ≤ n ∧ n < 4294967296 then some ⟨pools, exclude, some n.toNat⟩
        else none
      | some _ => none

/-- The scan invocation of the run command (src/src/commands/scan.rs line
45): the configured exclusion patterns and max_depth thread into
scan_directory for a pool. -/
def run_scan (cfg : RepositoriesConfig) (pool : FsEntry) : List (List Str) :=
  scan_directory pool cfg.exclude cfg.max_depth

theorem findSub_sound : ∀ (t pat : Str) (i : Nat),
    findSub t pat = some i → pat <+: t.drop i := by
  intro t
  induction t with
  | nil =>
    intro pat i h
    simp only [findSub] at h
    split at h
    · rename_i hp
      cases h
      exact List.isPrefixOf_iff_prefix.mp hp
    · cases h
  | cons c t2 ih =>
    intro pat i h
    simp only [findSub] at h
    split at h
    · rename_i hp
      cases h
      exact List.isPrefixOf_iff_prefix.mp hp
    · rcases Option.map_eq_some'.mp h with ⟨j, hj, hij⟩
      subst hij
      exact ih pat j hj

theorem findSub_le : ∀ (t pat : Str) (j : Nat),
    pat <+: t.drop j → ∃ i, findSub t pat = some i ∧ i ≤ j := by
  intro t
  induction t with
  | nil =>
    intro pat j h
    simp only [List.drop_nil] at h
    have hp : pat.isPrefixOf ([] : Str) := List.isPrefixOf_iff_prefix.mpr h
    exact ⟨0, by simp [findSub, hp], Nat.zero_le j⟩
  | cons c t2 ih =>
    intro pat j h
    by_cases hp : pat.isPrefixOf (c :: t2)
    · exact ⟨0, by simp [findSub, hp], Nat.zero_le j⟩
    · cases j with
      | zero =>
        rw [List.drop_zero] at h
        exact absurd (List.isPrefixOf_iff_prefix.mpr h) hp
      | succ j2 =>
        rw [List.drop_succ_cons] at h
        rcases ih pat j2 h with ⟨i, hi, hij⟩
        refine ⟨i + 1, ?_, by omega⟩
        simp [findSub, hp, hi]

theorem chainOk_mono {segs : List Str} {text : Str} {a b : Nat}
    (hab : a ≤ b) (h : chainOk segs text b) : chainOk segs text a := by
  cases segs with
  | nil => trivial
  | cons seg rest =>
    rcases h with ⟨p, hp, hocc, hrest⟩
    exact ⟨p, Nat.le_trans hab hp, hocc, hrest⟩

/-- The tail of the loop (indices at least 1) computes: the non-empty
segments before the final one form an occurrence chain from pos, and the
final segment, when non-empty, is a suffix of the text. -/
theorem globLoop_spec (parts : List Str) (text : Str) :
    ∀ pos, globLoop parts false text pos = true ↔
      (chainOk (parts.dropLast.filter (fun s => !s.isEmpty)) text pos ∧
       ∀ l, parts.getLast? = some l → l ≠ [] → l <:+ text) := by
  induction parts with
  | nil =>
    intro pos
    simp [globLoop, chainOk]
  | cons part rest ih =>
    intro pos
    by_cases hemp : part.isEmpty
    · have hpe : part = [] := by
        cases part
        · rfl
        · simp [List.isEmpty] at hemp
      subst hpe
      cases rest with
      | nil =>
        simp [globLoop, chainOk]
      | cons r rs =>
        rw [show globLoop ([] :: r :: rs) false text pos
              = globLoop (r :: rs) false text pos from by simp [globLoop]]
        rw [ih pos]
        rw [List.dropLast_cons₂, List.getLast?_cons_cons]
        simp only [List.filter_cons]
        norm_num
    · have hpne : part ≠ [] := by
        cases part
        · simp [List.isEmpty] at hemp
        · simp
      cases rest with
      | nil =>
        simp only [globLoop, hemp, Bool.false_eq_true, if_false, List.isEmpty_nil, if_true]
        simp only [List.dropLast_single, List.filter_nil, chainOk, List.getLast?_singleton]
        constructor
        · intro h
          split at h
          · rename_i hsuf
            refine ⟨trivial, ?_⟩
            intro l hl _
            cases hl
            exact List.isSuffixOf_iff_suffix.mp hsuf
          · cases h
        · rintro ⟨-, hlast⟩
          have := hlast part rfl hpne
          rw [if_pos (List.isSuffixOf_iff_suffix.mpr this)]
      | cons r rs =>
        have hstep : globLoop (part :: r :: rs) false text pos
            = match findSub (text.drop pos) part with
              | some found => globLoop (r :: rs) false text (pos + found + part.length)
              | none => false := by
          simp [globLoop, hemp]
        rw [hstep]
        rw [List.dropLast_cons₂, List.getLast?_cons_cons]
        simp only [List.filter_cons, hemp, Bool.not_false, if_true]
        constructor
        · intro h
          cases hfs : findSub (text.drop pos) part with
          | none => rw [hfs] at h; cases h
          | some found =>
            rw [hfs] at h
            have hocc : segOccursAt part text (pos + found) := by
              have := findSub_sound (text.drop pos) part found hfs
              rwa [segOccursAt, ← List.drop_drop]
            rcases (ih (pos + found + part.length)).mp h with ⟨hchain, hlast⟩
            refine ⟨?_, hlast⟩
            simp only [chainOk]
            exact ⟨pos + found, by omega, hocc, hchain⟩
        · rintro ⟨hchain, hlast⟩
          simp only [chainOk] at hchain
          rcases hchain with ⟨p, hp, hocc, hchain⟩
          have hdrop : part <+: (text.drop pos).drop (p - pos) := by
            rw [List.drop_drop]
            have : pos + (p - pos) = p := by omega
            rw [this]
            exact hocc
          rcases findSub_le (text.drop pos) part (p - pos) hdrop with ⟨i, hi, hip⟩
          rw [hi]
          refine (ih (pos + i + part.length)).mpr ⟨?_, hlast⟩
          exact chainOk_mono (by omega) hchain

-- Basic facts about splitStar

theorem splitStar_ne_nil (p : Str) : splitStar p ≠ [] := by
  cases p with
  | nil => simp [splitStar]
  | cons c rest =>
    simp only [splitStar]
    split
    · simp
    · cases h : splitStar rest <;> simp

theorem splitStar_length (p : Str) :
    (splitStar p).length = p.count '*' + 1 := by
  induction p with
  | nil => simp [splitStar]
  | cons c rest ih =>
    by_cases hc : c = '*'
    · subst hc
      simp [splitStar, List.count_cons, ih]
    · simp only [splitStar, if_neg hc]
      cases h : splitStar rest with
      | nil => exact absurd h (splitStar_ne_nil rest)
      | cons s ss =>
        rw [h] at ih
        simp only [List.length_cons] at ih ⊢
        rw [List.count_cons]
        simp [hc, ih]

theorem splitStar_replicate (n : Nat) :
    splitStar (List.replicate n '*') = List.replicate (n + 1) ([] : Str) := by
  induction n with
  | zero => simp [splitStar]
  | succ k ih => simp [List.replicate_succ, splitStar, ih]

theorem globLoop_all_empty (k : Nat) (f : Bool) (text : Str) (pos : Nat) :
    globLoop (List.replicate k ([] : Str)) f text pos = true := by
  induction k generalizing f with
  | zero => simp [globLoop]
  | succ m ih => simpa [List.replicate_succ, globLoop] using ih false

theorem splitStar_length_one_iff (p : Str) :
    (splitStar p).length = 1 ↔ '*' ∉ p := by
  rw [splitStar_length]
  constructor
  · intro h
    have : p.count '*' = 0 := by omega
    exact (List.count_eq_zero).mp this
  · intro h
    rw [List.count_eq_zero.mpr h]

/-- C4: the Glob Matcher algorithm. For every pattern P and text T: when P
has no wildcard, glob_match is exact equality; otherwise it holds iff T
starts with the first segment of P (when non-empty), ends with the last
segment (when non-empty), and the interior non-empty segments occur in T in
left-to-right non-overlapping order after the prefix occurrence. The empty
pattern matches only the empty text, and a pattern consisting solely of
wildcards matches every text. -/
theorem glob_match_meets_spec :
    (∀ P T, glob_match P T = true ↔ globMatchSpec P T)
    ∧ (∀ T, glob_match [] T = true ↔ T = [])
    ∧ (∀ n T, glob_match (List.replicate (n + 1) '*') T = true) := by
  refine ⟨?_, ?_, ?_⟩
  · intro P T
    by_cases h1 : (splitStar P).length = 1
    · simp only [glob_match, globMatchSpec, if_pos h1]
      exact beq_iff_eq
    · simp only [glob_match, globMatchSpec, if_neg h1]
      obtain ⟨f, r, rs, hparts⟩ : ∃ f r rs, splitStar P = f :: r :: rs := by
        cases hs : splitStar P with
        | nil => exact absurd hs (splitStar_ne_nil P)
        | cons f t =>
          cases t with
          | nil => rw [hs] at h1; simp at h1
          | cons r rs => exact ⟨f, r, rs, rfl⟩
      rw [hparts]
      simp only [List.headD_cons, List.drop_succ_cons, List.drop_zero]
      by_cases hf : f = []
      · subst hf
        have hstep : globLoop ([] :: r :: rs) true T 0
            = globLoop (r :: rs) false T 0 := by simp [globLoop]
        rw [hstep, globLoop_spec]
        rw [List.getLast?_cons_cons]
        simp only [ne_eq, not_true_eq_false, false_implies, true_and,
          List.length_nil]
        tauto
      · have hfe : f.isEmpty = false := by
          cases f
          · exact absurd rfl hf
          · rfl
        have hstep : globLoop (f :: r :: rs) true T 0
            = if f.isPrefixOf T then globLoop (r :: rs) false T f.length
              else false := by
          simp [globLoop, hfe]
        rw [hstep, List.getLast?_cons_cons]
        by_cases hpre : f.isPrefixOf T
        · rw [if_pos hpre, globLoop_spec]
          have hpre2 : f <+: T := List.isPrefixOf_iff_prefix.mp hpre
          simp only [ne_eq, hf, not_false_eq_true, forall_const]
          tauto
        · rw [if_neg hpre]
          have hnp : ¬ f <+: T := fun h => hpre (List.isPrefixOf_iff_prefix.mpr h)
          simp only [Bool.false_eq_true, false_iff]
          intro hcontra
          exact hnp (hcontra.1 hf)
  · intro T
    have : (splitStar []).length = 1 := by simp [splitStar]
    simp only [glob_match, if_pos this]
    rw [beq_iff_eq]
    exact eq_comm
  · intro n T
    have hsplit := splitStar_replicate (n + 1)
    have hlen : (splitStar (List.replicate (n + 1) '*')).length ≠ 1 := by
      rw [hsplit]
      simp
    simp only [glob_match, if_neg hlen, hsplit]
    exact globLoop_all_empty (n + 2) true T 0

/-- Witness: C4 applied at the concrete pattern a*c / text abc. -/
theorem glob_match_meets_spec_witness : globMatchSpec (str "a*c") (str "abc") :=
  (glob_match_meets_spec.1 (str "a*c") (str "abc")).mp (by decide)

theorem extractFirst_none_iff (pred : Profile → Bool) (l : List Profile) :
    extractFirst pred l = none ↔ l.findIdx? pred = none := by
  induction l with
  | nil => simp [extractFirst]
  | cons x xs ih =>
    by_cases h : pred x
    · simp [extractFirst, h, List.findIdx?_cons]
    · simp [extractFirst, h, List.findIdx?_cons, Option.map_eq_none', ih]

theorem extractFirst_some (pred : Profile → Bool) :
    ∀ (l : List Profile) (y : Profile) (ys : List Profile),
      extractFirst pred l = some (y, ys) →
      ∃ i, l.findIdx? pred = some i ∧ l[i]? = some y ∧ l.eraseIdx i = ys := by
  intro l
  induction l with
  | nil => intro y ys h; simp [extractFirst] at h
  | cons x xs ih =>
    intro y ys h
    by_cases hp : pred x
    · simp only [extractFirst, if_pos hp, Option.some.injEq, Prod.mk.injEq] at h
      obtain ⟨rfl, rfl⟩ := h
      refine ⟨0, ?_, by simp, rfl⟩
      simp [List.findIdx?_cons, hp]
    · simp only [extractFirst, if_neg hp] at h
      rcases Option.map_eq_some'.mp h with ⟨⟨y2, ys2⟩, hxs, heq⟩
      simp only [Prod.mk.injEq] at heq
      obtain ⟨rfl, rfl⟩ := heq
      rcases ih y2 ys2 hxs with ⟨i, h1, h2, h3⟩
      refine ⟨i + 1, ?_, ?_, ?_⟩
      · simp [List.findIdx?_cons, hp, h1]
      · simpa using h2
      · simp [List.eraseIdx_cons_succ, h3]

theorem promote_default_eq (profiles : List Profile) (d : Option Str) :
    promote_default profiles d = promotedSpec profiles d := by
  cases d with
  | none => rfl
  | some name =>
    simp only [promote_default, promotedSpec]
    cases hE : extractFirst (fun p => p.name == name) profiles with
    | none => rw [(extractFirst_none_iff _ profiles).mp hE]
    | some pr =>
      obtain ⟨y, ys⟩ := pr
      rcases extractFirst_some _ profiles y ys hE with ⟨i, h1, h2, h3⟩
      simp [h1, h2, h3]

theorem matchingSources_any (env : Env) (context : ProfileContext)
    (rules : List IncludeIfRule) (g : Str → Bool) :
    (matchingSources env context rules).any g
      = rules.any (fun r => r.matches env context && g r.target_path) := by
  induction rules with
  | nil => rfl
  | cons r rest ih =>
    simp only [matchingSources, List.filter_cons] at ih ⊢
    by_cases h : r.matches env context
    · simp [h, ih]
    · simp [h, ih]

/-- C1: context reordering of the profile catalog.  When the context
carries a target path or clone URL and some includeIf rule matches, the
catalog is partitioned into the profiles whose canonicalized source equals
the canonicalized target of a matching rule followed by the rest, both
sublists in their original relative order; otherwise (no match, no rules,
or a context without path and URL) the first profile named like the
configured default is moved to the front and all other relative order is
preserved. -/
theorem reorder_profiles_correct :
    ∀ (env : Env) (profiles : List Profile) (context : ProfileContext)
      (dflt : Option Str),
      ((context.target_path.isSome || context.clone_url.isSome) = true →
        (matchingSources env context env.rules ≠ [] →
          reorder_profiles_by_context env profiles context dflt =
            profiles.filter (matchesRuleTarget env env.rules context) ++
            profiles.filter (fun p => !(matchesRuleTarget env env.rules context p)))
        ∧ (matchingSources env context env.rules = [] →
          reorder_profiles_by_context env profiles context dflt =
            promotedSpec profiles dflt))
      ∧ ((context.target_path.isSome || context.clone_url.isSome) = false →
        reorder_profiles_by_context env profiles context dflt =
          promotedSpec profiles dflt) := by
  intro env profiles context dflt
  constructor
  · intro hctx
    constructor
    · intro hms
      have hrules : env.rules.isEmpty = false := by
        cases hr : env.rules with
        | nil => rw [hr] at hms; exact absurd rfl hms
        | cons a b => rfl
      have hmsE : (matchingSources env context env.rules).isEmpty = false := by
        cases hm : matchingSources env context env.rules with
        | nil => exact absurd hm hms
        | cons a b => rfl
      simp only [reorder_profiles_by_context, hctx, if_true,
        reorder_profiles_by_rules, hrules, hmsE, Bool.not_false, if_true]
      rw [List.partition_eq_filter_filter]
      have hpred : (fun profile =>
          (matchingSources env context env.rules).any (fun rule_target =>
            canonOr env rule_target == canonOr env profile.source))
          = matchesRuleTarget env env.rules context := by
        funext profile
        rw [matchingSources_any]
        rfl
      rw [hpred]
      simp only [Function.comp_def]
    · intro hms
      simp only [reorder_profiles_by_context, hctx, if_true,
        reorder_profiles_by_rules, hms]
      by_cases hr : env.rules.isEmpty
      · simp [hr, promote_default_eq]
      · simp only [Bool.not_eq_true] at hr
        simp [hr, List.isEmpty_nil, promote_default_eq]
  · intro hctx
    simp only [reorder_profiles_by_context, hctx, Bool.false_eq_true, if_false]
    exact promote_default_eq profiles dflt

/-- Witness: C1 at the spec reordering example, matching-URL side: the rule
bound to the work source matches the company.com clone URL, so work moves
to the front. -/
theorem reorder_profiles_correct_witness :
    reorder_profiles_by_context envC1 reorderCatalog ctxC1 (some (str "personal"))
      = [mkProfile "work" "/home/user/.gitconfig-work",
         mkProfile "personal" "/home/user/.gitconfig-personal"] := by
  have h := ((reorder_profiles_correct envC1 reorderCatalog ctxC1
    (some (str "personal"))).1 (by decide)).1 (by decide)
  rw [h]
  decide

/-- C2 counterexample: when the catalog holds both a dot-prefixed and a
gitconfig-prefixed candidate and the gitconfig-prefixed one is listed
first, the fallback returns it, not the dot-prefixed profile the claim
promises regardless of position. -/
theorem find_profile_tier_counterexample :
    find_profile_by_name cexCatalog (str "x")
      = .ok (mkProfile ".gitconfig-x" "/home/user/.gitconfig-x")
    ∧ (mkProfile ".gitconfig-x" "/home/user/.gitconfig-x").name ≠ str ".x" := by
  exact ⟨by decide, by decide⟩

/-- C2 amended: name lookup tiers.  Tier 1 returns the first profile whose
name or source path equals the query; otherwise a single second pass
returns the first profile whose name equals either the dot-prefixed or the
gitconfig-prefixed form of the query, whichever profile occurs first in
the catalog (the two fallback forms are not separate tiers); otherwise an
error naming all available profiles.  The spec lookup examples behave as
stated. -/
theorem find_profile_by_name_amended :
    (∀ (profiles : List Profile) (q : Str),
      (∀ p, profiles.find? (fun r => r.name == q || r.source == q) = some p →
        find_profile_by_name profiles q = .ok p)
      ∧ (profiles.find? (fun r => r.name == q || r.source == q) = none →
        (∀ p, profiles.find? (fun r =>
            r.name == ('.' :: q) || r.name == (str ".gitconfig-" ++ q)) = some p →
          find_profile_by_name profiles q = .ok p)
        ∧ (profiles.find? (fun r =>
            r.name == ('.' :: q) || r.name == (str ".gitconfig-" ++ q)) = none →
          find_profile_by_name profiles q = .error (notFoundMsg q profiles))))
    ∧ (find_profile_by_name sampleProfiles (str "personal")).toOption.map
        (fun p => p.name) = some (str ".personal")
    ∧ (find_profile_by_name sampleProfiles (str "oss")).toOption.map
        (fun p => p.name) = some (str ".gitconfig-oss")
    ∧ (find_profile_by_name sampleProfiles (str "work")).toOption.map
        (fun p => p.name) = some (str "work")
    ∧ find_profile_by_name sampleProfiles (str "nope")
        = .error (notFoundMsg (str "nope") sampleProfiles) := by
  refine ⟨?_, by decide, by decide, by decide, by decide⟩
  intro profiles q
  constructor
  · intro p hp
    simp only [find_profile_by_name, hp]
  · intro hnone
    constructor
    · intro p hp
      simp only [find_profile_by_name, hnone, hp]
    · intro hnone2
      simp only [find_profile_by_name, hnone, hnone2]

/-- Witness: C2 amended at the dot-prefix example. -/
theorem find_profile_by_name_amended_witness :
    find_profile_by_name sampleProfiles (str "personal")
      = .ok (mkProfile ".personal" "/home/user/.personal") :=
  ((find_profile_by_name_amended.1 sampleProfiles
    (str "personal")).2 (by decide)).1 _ (by decide)

theorem stripPre_eq_some : ∀ (p s r : Str), stripPre p s = some r ↔ s = p ++ r := by
  intro p
  induction p with
  | nil =>
    intro s r
    simp [stripPre]
  | cons c p2 ih =>
    intro s r
    cases s with
    | nil => simp [stripPre]
    | cons d s2 =>
      by_cases hcd : c = d
      · subst hcd
        simp [stripPre, ih]
      · simp only [stripPre, if_neg hcd, List.cons_append]
        constructor
        · intro h
          exact absurd h (by simp)
        · intro h
          obtain ⟨h1, -⟩ := List.cons.inj h
          exact absurd h1.symm hcd

theorem matches_gitdir_iff (env : Env) (pat : Str) (ctx : ProfileContext)
    (ci : Bool) :
    matches_gitdir env pat ctx ci = true ↔ matchesGitdirSpec env pat ctx ci := by
  cases hctx : ctx.target_path with
  | none => simp [matches_gitdir, matchesGitdirSpec, hctx]
  | some t0 =>
    simp only [matches_gitdir, matchesGitdirSpec, hctx, Option.some.injEq,
      exists_eq_left']
    by_cases h1 : (str "/") <:+ pat ∨ (str "/**") <:+ pat
    · have hb : ((str "/").isSuffixOf pat || (str "/**").isSuffixOf pat) = true := by
        rcases h1 with h | h
        · simp [List.isSuffixOf_iff_suffix, h]
        · simp [List.isSuffixOf_iff_suffix, h]
      rw [hb, if_pos h1]
      simp only [if_true]
      rw [List.isPrefixOf_iff_prefix]
      rfl
    · have hb : ((str "/").isSuffixOf pat || (str "/**").isSuffixOf pat) = false := by
        rcases not_or.mp h1 with ⟨ha, hc⟩
        rw [Bool.or_eq_false_iff]
        constructor
        · exact Bool.eq_false_iff.mpr
            (fun hh => ha (List.isSuffixOf_iff_suffix.mp hh))
        · exact Bool.eq_false_iff.mpr
            (fun hh => hc (List.isSuffixOf_iff_suffix.mp hh))
      rw [hb, if_neg h1]
      simp only [Bool.false_eq_true, if_false]
      by_cases h2 : '*' ∈ pat
      · have hc : pat.contains '*' = true := by simpa using h2
        rw [hc, if_pos h2]
        simp only [if_true]
        rfl
      · have hc : pat.contains '*' = false := by simpa using h2
        rw [hc, if_neg h2]
        simp only [Bool.false_eq_true, if_false]
        rw [beq_iff_eq]
        rfl

/-- C5: gitdir rule matching.  A rule whose condition is pre-tagged gitdir
(or its case-insensitive variant) matches exactly as the spec states:
target path required, canonicalize-or-literal on both operands, then
directory-prefix test for slash or slash-star-star terminated patterns,
Glob Matcher for wildcard patterns, exact equality otherwise, lowercasing
both operands for the insensitive variant; a condition carrying none of the
three recognized tags never matches any context. -/
theorem includeif_matches_correct :
    ∀ (env : Env) (rule : IncludeIfRule) (context : ProfileContext),
      (∀ pat, rule.condition = str "gitdir:" ++ pat →
        (rule.matches env context = true ↔ matchesGitdirSpec env pat context false))
      ∧ (∀ pat, rule.condition = str "gitdir/i:" ++ pat →
        (rule.matches env context = true ↔ matchesGitdirSpec env pat context true))
      ∧ ((∀ pat, rule.condition ≠ str "gitdir:" ++ pat) →
         (∀ pat, rule.condition ≠ str "gitdir/i:" ++ pat) →
         (∀ pat, rule.condition ≠ str "hasconfig:remote.*.url:" ++ pat) →
         rule.matches env context = false) := by
  intro env rule context
  refine ⟨?_, ?_, ?_⟩
  · intro pat hcond
    have hs : stripPre (str "gitdir:") rule.condition = some pat :=
      (stripPre_eq_some _ _ _).mpr hcond
    simp only [IncludeIfRule.matches, hs]
    exact matches_gitdir_iff env pat context false
  · intro pat hcond
    have hs1 : stripPre (str "gitdir:") rule.condition = none := by
      cases h : stripPre (str "gitdir:") rule.condition with
      | none => rfl
      | some r =>
        exfalso
        have heq := (stripPre_eq_some _ _ _).mp h
        rw [hcond] at heq
        have h6 : (str "gitdir/i:" ++ pat)[6]? = some '/' := by
          rw [List.getElem?_append]
          rw [if_pos (show (6 : Nat) < (str "gitdir/i:").length from by decide)]
          decide
        have h6b : (str "gitdir:" ++ r)[6]? = some (Char.ofNat 58) := by
          rw [List.getElem?_append]
          rw [if_pos (show (6 : Nat) < (str "gitdir:").length from by decide)]
          decide
        rw [heq, h6b] at h6
        exact absurd h6 (by decide)
    have hs2 : stripPre (str "gitdir/i:") rule.condition = some pat :=
      (stripPre_eq_some _ _ _).mpr hcond
    simp only [IncludeIfRule.matches, hs1, hs2]
    exact matches_gitdir_iff env pat context true
  · intro h1 h2 h3
    have hs1 : stripPre (str "gitdir:") rule.condition = none := by
      cases h : stripPre (str "gitdir:") rule.condition with
      | none => rfl
      | some r => exact absurd ((stripPre_eq_some _ _ _).mp h) (h1 r)
    have hs2 : stripPre (str "gitdir/i:") rule.condition = none := by
      cases h : stripPre (str "gitdir/i:") rule.condition with
      | none => rfl
      | some r => exact absurd ((stripPre_eq_some _ _ _).mp h) (h2 r)
    have hs3 : stripPre (str "hasconfig:remote.*.url:") rule.condition = none := by
      cases h : stripPre (str "hasconfig:remote.*.url:") rule.condition with
      | none => rfl
      | some r => exact absurd ((stripPre_eq_some _ _ _).mp h) (h3 r)
    simp only [IncludeIfRule.matches, hs1, hs2, hs3]

/-- Witness: C5 at an exact-match gitdir rule over the literal path /w. -/
theorem includeif_matches_correct_witness :
    matchesGitdirSpec envC5 (str "/w") ctxC5 false :=
  ((includeif_matches_correct envC5 ⟨str "gitdir:/w", str "/t"⟩ ctxC5).1
    (str "/w") (by decide)).mp (by decide)

/-- C3 counterexample: when the state file exists but fs::read fails, load
propagates an error instead of returning the all-default state the claim
promises for the unreadable case, and no deletion happens. -/
theorem state_load_counterexample :
    (load stEnvUnreadable).1 = .error (str "Failed to read yarm state file")
    ∧ (load stEnvUnreadable).2 = false := by
  exact ⟨by decide, by decide⟩

/-- C3 amended: load returns the all-default empty state when the state
path is unknown, the file is absent, the bytes fail to decode, or the
decoded version differs from STATE_VERSION; when the file exists but
cannot be read it returns an error; the stale file is removed exactly when
bytes were read but failed to decode or decoded with a mismatched
version. -/
theorem state_load_amended :
    ∀ env : StateEnv,
      (env.path_known = false → load env = (.ok State.dflt, false))
      ∧ (env.file_exists = false → load env = (.ok State.dflt, false))
      ∧ (env.path_known = true → env.file_exists = true → env.read = none →
          load env = (.error (str "Failed to read yarm state file"), false))
      ∧ (∀ bytes, env.path_known = true → env.file_exists = true →
          env.read = some bytes →
          (env.decode bytes = none → load env = (.ok State.dflt, true))
          ∧ (∀ envl, env.decode bytes = some envl →
              (envl.version = STATE_VERSION → load env = (.ok envl.state, false))
              ∧ (envl.version ≠ STATE_VERSION → load env = (.ok State.dflt, true)))) := by
  intro env
  refine ⟨?_, ?_, ?_, ?_⟩
  · intro h
    simp [load, h]
  · intro h
    simp [load, h]
  · intro h1 h2 h3
    simp [load, h1, h2, h3]
  · intro bytes h1 h2 h3
    constructor
    · intro hdec
      simp [load, h1, h2, h3, hdec]
    · intro envl hdec
      constructor
      · intro hv
        simp [load, h1, h2, h3, hdec, hv]
      · intro hv
        simp [load, h1, h2, h3, hdec, hv]

/-- Witness: C3 amended at a stale-version environment: the default state
comes back and the stale file is removed. -/
theorem state_load_amended_witness :
    load stEnvStale = (.ok State.dflt, true) :=
  (((state_load_amended stEnvStale).2.2.2 [] rfl rfl rfl).2
    ⟨1, ⟨[str "/some/repo"], none⟩⟩ rfl).2 (by decide)

/-- C10: unsetting an absent key is not an error.  Given the spawned git
config process completed with some exit status: an unset call (value none)
succeeds on exit code 5; any other unsuccessful status makes unset fail;
a set call (value some v) fails on every unsuccessful status; and every
successful status yields Ok. -/
theorem set_config_exit_codes :
    ∀ (env : GitEnv) (path key : Str) (value : Option Str) (code : Option Int),
      env.run (set_config_args env.is_dir path key value) = some code →
      ((value = none → code = some 5 →
          set_config env path key value = .ok ())
       ∧ (value = none → code ≠ some 5 → statusSuccess code = false →
          set_config env path key value
            = .error (str "Failed to set git config " ++ key))
       ∧ (∀ v, value = some v → statusSuccess code = false →
          set_config env path key value
            = .error (str "Failed to set git config " ++ key))
       ∧ (statusSuccess code = true →
          set_config env path key value = .ok ())) := by
  intro env path key value code hrun
  refine ⟨?_, ?_, ?_, ?_⟩
  · intro hv hc
    subst hv
    subst hc
    simp [set_config, hrun]
  · intro hv hc hs
    subst hv
    have hb : (code == some 5) = false := by
      rw [beq_eq_false_iff_ne]
      exact hc
    simp [set_config, hrun, hb, hs]
  · intro v hv hs
    subst hv
    simp [set_config, hrun, hs]
  · intro hs
    by_cases hb : (value.isNone && code == some 5) = true
    · simp [set_config, hrun, hb]
    · simp only [Bool.not_eq_true] at hb
      simp [set_config, hrun, hb, hs]

/-- Witness: C10 at an unset call whose process exits with code 5. -/
theorem set_config_exit_codes_witness :
    set_config gitEnv5 (str "/repo") (str "user.name") none = .ok () :=
  (set_config_exit_codes gitEnv5 (str "/repo") (str "user.name") none
    (some 5) rfl).1 rfl rfl

theorem dfs_none {excl : List Str} {maxD : Option Nat} {e : FsEntry}
    {rel : List Str} {depth : Nat} (h : readDir e = none) :
    dfs excl maxD e rel depth = [] := by
  rw [dfs]
  split
  · rfl
  · rename_i es2 heq
    rw [h] at heq
    cases heq

theorem dfs_git {excl : List Str} {maxD : Option Nat} {e : FsEntry}
    {rel : List Str} {depth : Nat} {es : List (Str × FsEntry)}
    (h : readDir e = some es) (hg : hasGit es = true) :
    dfs excl maxD e rel depth = [rel] := by
  rw [dfs]
  split
  · rename_i heq
    rw [h] at heq
    cases heq
  · rename_i es2 heq
    rw [h] at heq
    injection heq with heq2
    subst heq2
    simp [hg]

theorem dfs_descend {excl : List Str} {maxD : Option Nat} {e : FsEntry}
    {rel : List Str} {depth : Nat} {es : List (Str × FsEntry)}
    (h : readDir e = some es) (hg : hasGit es = false)
    (hd : depthOk maxD depth = true) :
    dfs excl maxD e rel depth
      = dfsList excl maxD ((eligibleSubdirs excl rel es).reverse) rel depth := by
  rw [dfs]
  split
  · rename_i heq
    rw [h] at heq
    cases heq
  · rename_i es2 heq
    rw [h] at heq
    injection heq with heq2
    subst heq2
    simp [hg, hd]

theorem dfs_blocked {excl : List Str} {maxD : Option Nat} {e : FsEntry}
    {rel : List Str} {depth : Nat} {es : List (Str × FsEntry)}
    (h : readDir e = some es) (hg : hasGit es = false)
    (hd : depthOk maxD depth = false) :
    dfs excl maxD e rel depth = [] := by
  rw [dfs]
  split
  · rfl
  · rename_i es2 heq
    rw [h] at heq
    injection heq with heq2
    subst heq2
    simp [hg, hd]

theorem dfsList_flatMap (excl : List Str) (maxD : Option Nat) :
    ∀ (lst : List (Str × FsEntry)) (rel : List Str) (depth : Nat),
      dfsList excl maxD lst rel depth
        = lst.flatMap (fun p => dfs excl maxD p.2 (rel ++ [p.1]) (depth + 1)) := by
  intro lst
  induction lst with
  | nil =>
    intro rel depth
    rw [dfsList]
    simp
  | cons a rest ih =>
    intro rel depth
    obtain ⟨n, c⟩ := a
    rw [dfsList]
    simp only [List.flatMap_cons]
    rw [ih]

theorem scanLoop_nil (excl : List Str) (maxD : Option Nat)
    (repos : List (List Str)) : scanLoop excl maxD [] repos = repos := by
  rw [scanLoop]

theorem scanLoop_cons_none {excl : List Str} {maxD : Option Nat}
    {e : FsEntry} {rel : List Str} {depth : Nat}
    {stack : List (FsEntry × List Str × Nat)} {repos : List (List Str)}
    (h : readDir e = none) :
    scanLoop excl maxD ((e, (rel, depth)) :: stack) repos
      = scanLoop excl maxD stack repos := by
  rw [scanLoop]
  split
  · rfl
  · rename_i es2 heq
    rw [h] at heq
    cases heq

theorem scanLoop_cons_git {excl : List Str} {maxD : Option Nat}
    {e : FsEntry} {rel : List Str} {depth : Nat}
    {stack : List (FsEntry × List Str × Nat)} {repos : List (List Str)}
    {es : List (Str × FsEntry)}
    (h : readDir e = some es) (hg : hasGit es = true) :
    scanLoop excl maxD ((e, (rel, depth)) :: stack) repos
      = scanLoop excl maxD stack (repos ++ [rel]) := by
  rw [scanLoop]
  split
  · rename_i heq
    rw [h] at heq
    cases heq
  · rename_i es2 heq
    rw [h] at heq
    injection heq with heq2
    subst heq2
    simp [hg]

theorem scanLoop_cons_descend {excl : List Str} {maxD : Option Nat}
    {e : FsEntry} {rel : List Str} {depth : Nat}
    {stack : List (FsEntry × List Str × Nat)} {repos : List (List Str)}
    {es : List (Str × FsEntry)}
    (h : readDir e = some es) (hg : hasGit es = false)
    (hd : depthOk maxD depth = true) :
    scanLoop excl maxD ((e, (rel, depth)) :: stack) repos
      = scanLoop excl maxD
          ((eligibleSubdirs excl rel es).reverse.map
            (fun e2 => (e2.2, (rel ++ [e2.1], depth + 1))) ++ stack)
          repos := by
  rw [scanLoop]
  split
  · rename_i heq
    rw [h] at heq
    cases heq
  · rename_i es2 heq
    rw [h] at heq
    injection heq with heq2
    subst heq2
    simp [hg, hd]

theorem scanLoop_cons_blocked {excl : List Str} {maxD : Option Nat}
    {e : FsEntry} {rel : List Str} {depth : Nat}
    {stack : List (FsEntry × List Str × Nat)} {repos : List (List Str)}
    {es : List (Str × FsEntry)}
    (h : readDir e = some es) (hg : hasGit es = false)
    (hd : depthOk maxD depth = false) :
    scanLoop excl maxD ((e, (rel, depth)) :: stack) repos
      = scanLoop excl maxD stack repos := by
  rw [scanLoop]
  split
  · rfl
  · rename_i es2 heq
    rw [h] at heq
    injection heq with heq2
    subst heq2
    simp [hg, hd]

/-- The worklist scan computes, from any stack and accumulator, the
accumulated hits followed by the recursive characterization of each stack
item in order. -/
theorem scanLoop_eq_dfs (excl : List Str) (maxD : Option Nat) :
    ∀ (n : Nat) (stack : List (FsEntry × List Str × Nat))
      (repos : List (List Str)),
      stackSize stack ≤ n →
      scanLoop excl maxD stack repos
        = repos ++ stack.flatMap (fun it => dfs excl maxD it.1 it.2.1 it.2.2) := by
  intro n
  induction n using Nat.strong_induction_on with
  | _ n ih =>
    intro stack repos hle
    match stack with
    | [] => simp [scanLoop_nil]
    | (e, (rel, depth)) :: stack2 =>
      have hsz : stackSize ((e, (rel, depth)) :: stack2)
          = esize e + stackSize stack2 := by
        simp [stackSize]
      have hepos := esize_pos e
      have hlt2 : stackSize stack2 < n := by omega
      cases h : readDir e with
      | none =>
        rw [scanLoop_cons_none h]
        rw [ih (stackSize stack2) hlt2 stack2 repos le_rfl]
        simp [dfs_none h]
      | some es =>
        have hes := readDir_esize h
        by_cases hg : hasGit es = true
        · rw [scanLoop_cons_git h hg]
          rw [ih (stackSize stack2) hlt2 stack2 (repos ++ [rel]) le_rfl]
          simp [dfs_git h hg]
        · have hg2 : hasGit es = false := by
            cases hgit : hasGit es
            · rfl
            · exact absurd hgit hg
          by_cases hd : depthOk maxD depth = true
          · rw [scanLoop_cons_descend h hg2 hd]
            have hch : stackSize ((eligibleSubdirs excl rel es).reverse.map
                (fun e2 => (e2.2, (rel ++ [e2.1], depth + 1))))
                = esizeList ((eligibleSubdirs excl rel es).reverse) :=
              stackSize_children _ _
            have hfil := esizeList_filter_le (fun e2 =>
              isDirE e2.2
              && !startsWithDot e2.1
              && !(SKIP_DIRS.contains e2.1)
              && !(excl.any (fun pattern =>
                    globsetMatch pattern (joinPath (rel ++ [e2.1]))))) es
            have hrev := esizeList_reverse (eligibleSubdirs excl rel es)
            have hsz2 : stackSize ((eligibleSubdirs excl rel es).reverse.map
                (fun e2 => (e2.2, (rel ++ [e2.1], depth + 1))) ++ stack2) < n := by
              rw [stackSize_append, hch, hrev]
              simp only [eligibleSubdirs] at hfil ⊢
              omega
            rw [ih (stackSize ((eligibleSubdirs excl rel es).reverse.map
                (fun e2 => (e2.2, (rel ++ [e2.1], depth + 1))) ++ stack2))
                hsz2 _ repos le_rfl]
            rw [show ∀ st2 : List (FsEntry × List Str × Nat),
                ((e, (rel, depth)) :: st2).flatMap
                  (fun it => dfs excl maxD it.1 it.2.1 it.2.2)
                = dfs excl maxD e rel depth
                  ++ st2.flatMap (fun it => dfs excl maxD it.1 it.2.1 it.2.2)
              from fun st2 => by simp]
            rw [dfs_descend h hg2 hd, dfsList_flatMap]
            simp only [List.flatMap_append, List.append_assoc]
            rw [List.flatMap_map]
          · have hd2 : depthOk maxD depth = false := by
              cases hdep : depthOk maxD depth
              · rfl
              · exact absurd hdep hd
            rw [scanLoop_cons_blocked h hg2 hd2]
            rw [ih (stackSize stack2) hlt2 stack2 repos le_rfl]
            simp [dfs_blocked h hg2 hd2]

/-- scan_directory equals the per-directory recursive characterization at
the pool root. -/
theorem scan_directory_eq_dfs (root : FsEntry) (excl : List Str)
    (maxD : Option Nat) :
    scan_directory root excl maxD = dfs excl maxD root [] 0 := by
  rw [scan_directory]
  rw [scanLoop_eq_dfs excl maxD (stackSize [(root, ([], 0))]) _ _ le_rfl]
  simp

/-- C6: the scanner hit invariant.  A scanned directory whose entries hold
one named .git (directory or file) is reported as the sole hit of its
subtree: the result is its own path whatever the subtree holds, so no
subdirectory of it is ever visited or pushed; the same holds at every
visited directory through the recursive characterization of the worklist;
over the spec tree with .git at root and child, the scan yields exactly
the root. -/
theorem scanner_git_hit_invariant :
    (∀ (excl : List Str) (maxD : Option Nat) (es : List (Str × FsEntry)),
      hasGit es = true → scan_directory (.dir true es) excl maxD = [[]])
    ∧ (∀ (excl : List Str) (maxD : Option Nat) (rel : List Str) (d : Nat)
        (es : List (Str × FsEntry)), hasGit es = true →
        dfs excl maxD (.dir true es) rel d = [rel])
    ∧ scan_directory treeRootChildGit [] none = [[]] := by
  refine ⟨?_, ?_, ?_⟩
  · intro excl maxD es hgit
    rw [scan_directory_eq_dfs]
    exact dfs_git rfl hgit
  · intro excl maxD rel d es hgit
    exact dfs_git rfl hgit
  · rw [scan_directory_eq_dfs]
    exact dfs_git rfl rfl

/-- Witness: C6 at a one-entry repository directory with an unrelated
exclusion pattern and depth bound. -/
theorem scanner_git_hit_invariant_witness :
    scan_directory (.dir true [(str ".git", .file)]) [str "x"] (some 5)
      = [[]] :=
  scanner_git_hit_invariant.1 [str "x"] (some 5)
    [(str ".git", FsEntry.file)] rfl

/-- C7 counterexample: over the claim's own tree, with .git at both the
root and the child, an unbounded scan yields only the root, not both. -/
theorem scan_depth_counterexample :
    scan_directory treeRootChildGit [] none = [[]]
    ∧ ¬ [str "child"] ∈ scan_directory treeRootChildGit [] none := by
  have h : scan_directory treeRootChildGit [] none = [[]] := by
    rw [scan_directory_eq_dfs]
    exact dfs_git rfl rfl
  refine ⟨h, ?_⟩
  rw [h]
  decide

/-- C7 amended: the depth bound.  A directory at depth d descends into its
eligible children iff d is below the bound; an unset bound always
descends; maxDepth zero inspects only the root (a hit iff the root holds
.git).  Over the tree with .git at root and child both bounds yield only
the root (the root hit blocks descent); the unlimited/none contrast shows
on a tree whose only .git is one level down: maxDepth zero finds nothing,
none finds the child. -/
theorem scan_depth_bound_amended :
    (∀ (excl : List Str) (limit : Nat) (rel : List Str) (d : Nat)
        (es : List (Str × FsEntry)), hasGit es = false →
        (d < limit →
          dfs excl (some limit) (.dir true es) rel d
            = dfsList excl (some limit)
                ((eligibleSubdirs excl rel es).reverse) rel d)
        ∧ (limit ≤ d → dfs excl (some limit) (.dir true es) rel d = []))
    ∧ (∀ (excl : List Str) (rel : List Str) (d : Nat)
        (es : List (Str × FsEntry)), hasGit es = false →
        dfs excl none (.dir true es) rel d
          = dfsList excl none ((eligibleSubdirs excl rel es).reverse) rel d)
    ∧ (∀ (excl : List Str) (es : List (Str × FsEntry)),
        scan_directory (.dir true es) excl (some 0)
          = if hasGit es then [[]] else [])
    ∧ scan_directory treeChildGit [] (some 0) = []
    ∧ scan_directory treeChildGit [] none = [[str "child"]]
    ∧ scan_directory treeRootChildGit [] (some 0) = [[]]
    ∧ scan_directory treeRootChildGit [] none = [[]] := by
  refine ⟨?_, ?_, ?_, ?_, ?_, ?_, ?_⟩
  · intro excl limit rel d es hg
    constructor
    · intro hlt
      exact dfs_descend rfl hg (by simp [depthOk]; omega)
    · intro hge
      exact dfs_blocked rfl hg (by simp [depthOk]; omega)
  · intro excl rel d es hg
    exact dfs_descend rfl hg rfl
  · intro excl es
    rw [scan_directory_eq_dfs]
    cases hg : hasGit es with
    | true =>
      rw [if_pos rfl]
      exact dfs_git rfl hg
    | false =>
      rw [if_neg (by simp)]
      exact dfs_blocked rfl hg rfl
  · rw [scan_directory_eq_dfs]
    exact dfs_blocked rfl rfl rfl
  · rw [scan_directory_eq_dfs]
    rw [dfs_descend (show readDir treeChildGit
        = some [(str "child", FsEntry.dir true [(str ".git", FsEntry.file)])]
      from rfl)
      (show hasGit [(str "child", FsEntry.dir true [(str ".git", FsEntry.file)])]
        = false from rfl)
      (show depthOk none 0 = true from rfl)]
    rw [dfsList_flatMap]
    rw [show (eligibleSubdirs [] []
        [(str "child", FsEntry.dir true [(str ".git", FsEntry.file)])]).reverse
        = [(str "child", FsEntry.dir true [(str ".git", FsEntry.file)])]
      from rfl]
    simp only [List.flatMap_cons, List.flatMap_nil]
    rw [dfs_git (show readDir (FsEntry.dir true [(str ".git", FsEntry.file)])
        = some [(str ".git", FsEntry.file)] from rfl) rfl]
    simp
  · rw [scan_directory_eq_dfs]
    exact dfs_git rfl rfl
  · rw [scan_directory_eq_dfs]
    exact dfs_git rfl rfl

/-- Witness: C7 amended at limit zero, an empty root and blocked descent. -/
theorem scan_depth_bound_amended_witness :
    dfs [] (some 0) (.dir true []) [] 0 = [] :=
  (scan_depth_bound_amended.1 [] 0 [] 0 [] rfl).2 (Nat.le_refl 0)

theorem gsTokens_noStar : ∀ P : Str, '*' ∉ P → gsTokens P = P.map .lit := by
  intro P
  induction P with
  | nil => intro; rfl
  | cons c rest ih =>
    intro hmem
    have hc : ¬ c = '*' := fun hcc => hmem (hcc ▸ List.mem_cons_self c rest)
    have hrest : '*' ∉ rest := fun hr => hmem (List.mem_cons_of_mem c hr)
    unfold gsTokens
    rw [if_neg hc, ih hrest, List.map_cons]

theorem gsMatch_lit : ∀ (P R : Str), gsMatch (P.map .lit) R = (P == R) := by
  intro P
  induction P with
  | nil =>
    intro R
    cases R with
    | nil => rfl
    | cons x xs => rfl
  | cons c rest ih =>
    intro R
    cases R with
    | nil => rfl
    | cons x xs =>
      show (c == x && gsMatch (rest.map .lit) xs) = (c :: rest == x :: xs)
      rw [ih xs]
      rfl

/-- C8 counterexample: the scan exclusion relation is not the 4.1 Glob
Matcher.  The 4.1 matcher accepts pattern a-star-a against the relative
path a (no separator involved), so the claim demands subdirectory a be
skipped, yet the scan with that exclusion still reports root/a. -/
theorem scan_exclude_glob_counterexample :
    glob_match (str "a*a") (str "a") = true
    ∧ scan_directory treeSubA [str "a*a"] none = [[str "a"]] := by
  constructor
  · decide
  · rw [scan_directory_eq_dfs]
    rw [dfs_descend (show readDir treeSubA
        = some [(str "a", FsEntry.dir true [(str ".git", FsEntry.file)])]
      from rfl)
      (show hasGit [(str "a", FsEntry.dir true [(str ".git", FsEntry.file)])]
        = false from rfl)
      (show depthOk none 0 = true from rfl)]
    rw [dfsList_flatMap]
    rw [show (eligibleSubdirs [str "a*a"] []
        [(str "a", FsEntry.dir true [(str ".git", FsEntry.file)])]).reverse
        = [(str "a", FsEntry.dir true [(str ".git", FsEntry.file)])]
      from rfl]
    simp only [List.flatMap_cons, List.flatMap_nil]
    rw [dfs_git (show readDir (FsEntry.dir true [(str ".git", FsEntry.file)])
        = some [(str ".git", FsEntry.file)] from rfl) rfl]
    simp

/-- C8 amended: scan exclusion uses the modelled globset matcher
(full-anchored, a single star confined to non-separator runs), not the 4.1
substring-style Glob Matcher.  The two relations agree on every star-free
pattern (both are string equality), but diverge in general: globset
rejects the a-star-a pattern against the path a, which the 4.1 matcher
accepts, and the scan correspondingly skips subdirectory a exactly for
patterns its globset matcher accepts. -/
theorem scan_exclude_globset_amended :
    (∀ P R : Str, '*' ∉ P → globsetMatch P R = glob_match P R)
    ∧ globsetMatch (str "a*a") (str "a") = false
    ∧ scan_directory treeSubA [str "a"] none = [] := by
  refine ⟨?_, by decide, ?_⟩
  · intro P R hP
    have h1 : (splitStar P).length = 1 := (splitStar_length_one_iff P).mpr hP
    rw [glob_match, if_pos h1]
    rw [globsetMatch, gsTokens_noStar P hP, gsMatch_lit]
  · rw [scan_directory_eq_dfs]
    rw [dfs_descend (show readDir treeSubA
        = some [(str "a", FsEntry.dir true [(str ".git", FsEntry.file)])]
      from rfl)
      (show hasGit [(str "a", FsEntry.dir true [(str ".git", FsEntry.file)])]
        = false from rfl)
      (show depthOk none 0 = true from rfl)]
    rw [dfsList_flatMap]
    rw [show (eligibleSubdirs [str "a"] []
        [(str "a", FsEntry.dir true [(str ".git", FsEntry.file)])]).reverse
        = [] from rfl]
    simp

/-- Witness: C8 amended at a star-free pattern. -/
theorem scan_exclude_globset_amended_witness :
    globsetMatch (str "ab") (str "ab") = glob_match (str "ab") (str "ab") :=
  scan_exclude_globset_amended.1 (str "ab") (str "ab") (by decide)

/-- C9: repositories.max_depth is a recognized optional integer option:
decoding a repositories table that sets max_depth to an in-range
non-negative integer n yields a configuration carrying Some n, a table
without the key yields None, and the scan command passes the configured
value to scan_directory as its depth bound. -/
theorem config_max_depth_recognized :
    (∀ (tbl : List (Str × TomlVal)) (n : Int) (cfg : RepositoriesConfig),
      lookupKey tbl (str "max_depth") = some (.int n) →
      0 ≤ n → n < 4294967296 →
      decodeRepositoriesConfig tbl = some cfg →
      cfg.max_depth = some n.toNat)
    ∧ (∀ (tbl : List (Str × TomlVal)) (cfg : RepositoriesConfig),
      lookupKey tbl (str "max_depth") = none →
      decodeRepositoriesConfig tbl = some cfg →
      cfg.max_depth = none)
    ∧ (∀ (cfg : RepositoriesConfig) (pool : FsEntry),
      run_scan cfg pool = scan_directory pool cfg.exclude cfg.max_depth) := by
  refine ⟨?_, ?_, ?_⟩
  · intro tbl n cfg hlook h0 hlt hdec
    unfold decodeRepositoriesConfig at hdec
    cases hp : decodeStrArr (lookupKey tbl (str "pools")) with
    | none => rw [hp] at hdec; cases hdec
    | some pools =>
      rw [hp] at hdec
      cases he : decodeStrArr (lookupKey tbl (str "exclude")) with
      | none => rw [he] at hdec; cases hdec
      | some excl =>
        rw [he, hlook] at hdec
        dsimp only at hdec
        rw [if_pos ⟨h0, hlt⟩] at hdec
        cases hdec
        rfl
  · intro tbl cfg hlook hdec
    unfold decodeRepositoriesConfig at hdec
    cases hp : decodeStrArr (lookupKey tbl (str "pools")) with
    | none => rw [hp] at hdec; cases hdec
    | some pools =>
      rw [hp] at hdec
      cases he : decodeStrArr (lookupKey tbl (str "exclude")) with
      | none => rw [he] at hdec; cases hdec
      | some excl =>
        rw [he, hlook] at hdec
        dsimp only at hdec
        cases hdec
        rfl
  · intro cfg pool
    rfl

/-- Witness: C9 at a one-key table setting max_depth to three. -/
theorem config_max_depth_recognized_witness :
    (⟨[], [], some 3⟩ : RepositoriesConfig).max_depth = some ((3 : Int).toNat) :=
  config_max_depth_recognized.1 [(str "max_depth", TomlVal.int 3)] 3
    ⟨[], [], some 3⟩ rfl (by decide) (by decide) rfl
